import Mathlib

/-!
Verification of the SesameOS3 BLE client (`sesameos3client`).

Shallow embedding of `sesame_transport.py` (CCMAgent, SSMTransportHandler)
and `sesame_client.py` (message codecs, login derivation, listener dispatch).

Conventions:
* Byte strings are `List Nat` (each element a byte value).
* Python exceptions are modelled with `Option`/`Except`: `none` / `.error`
  means the call raised.
* The AES-CCM and CMAC primitives come from an external, vetted crypto
  library (PyCryptodome); only their use (nonce, AAD, tag length, key
  derivation inputs) is governed here, so the transport definitions are
  parametric in the primitive (`AEADPrim`), and the login derivation is
  parametric in the CMAC function.
-/

namespace SesameOS3

/-- Little-endian encoding of `v` into exactly `n` bytes, the core of
Python `int.to_bytes(n, 'little')` (without its overflow check). -/
def toBytesLE : Nat → Nat → List Nat
  | 0, _ => []
  | n + 1, v => (v % 256) :: toBytesLE n (v / 256)

/-- Python `int.to_bytes(n, 'little')`: raises `OverflowError` (here `none`)
when `v` does not fit in `n` bytes. -/
def intToBytesLE (n v : Nat) : Option (List Nat) :=
  if v < 2 ^ (8 * n) then some (toBytesLE n v) else none

/-- Python `int.from_bytes(bs, 'little')` (accepts any length, including 0;
the inputs are `bytes` objects, so every element is below 256). -/
def fromBytesLE : List Nat → Nat
  | [] => 0
  | b :: rest => b + 256 * fromBytesLE rest

/-- The external AES-CCM primitive (PyCryptodome `AES.new(key, MODE_CCM,
nonce, mac_len)` followed by `update`/`encrypt_and_digest` resp.
`update`/`decrypt_and_verify`).  `encDigest key nonce aad macLen plaintext`
returns `(ciphertext, tag)`; `decVerify key nonce aad macLen ciphertext tag`
returns the plaintext, or `none` when the tag does not verify
(PyCryptodome raises `ValueError`). -/
structure AEADPrim where
  encDigest : List Nat → List Nat → List Nat → Nat → List Nat → List Nat × List Nat
  decVerify : List Nat → List Nat → List Nat → Nat → List Nat → List Nat → Option (List Nat)

/-- `CCMAgent.__init__` state: session challenge (`random_code`), session
key (`token`), per-direction counters, and the reserved `nouse` byte. -/
structure CCMAgent where
  random_code : List Nat
  token : List Nat
  recv_count : Nat
  send_count : Nat
  nouse : Nat
deriving DecidableEq, Repr

/-- `CCMAgent(random_code, token)`: counters start at 0, `nouse = 0`. -/
def CCMAgent.init (random_code token : List Nat) : CCMAgent :=
  { random_code := random_code, token := token
    recv_count := 0, send_count := 0, nouse := 0 }

/-- `CCMAgent.create_iv`: `count.to_bytes(8,'little') +
nouse.to_bytes(1,'little') + random_code`.  `none` when a `to_bytes`
raises `OverflowError`. -/
def CCMAgent.create_iv (a : CCMAgent) (count : Nat) : Option (List Nat) := do
  let count_bytes ← intToBytesLE 8 count
  let nouse_bytes ← intToBytesLE 1 a.nouse
  return count_bytes ++ nouse_bytes ++ a.random_code

/-- Errors raised by the transport layer:
`ccmNotInitialized` = `RuntimeError("CCM agent is not initialized")`,
`overflowError` = `OverflowError` from `int.to_bytes`,
`authError` = `ValueError` from `decrypt_and_verify`,
`indexError` = `IndexError` from indexing into a too-short byte string. -/
inductive TransportError where
  | ccmNotInitialized
  | overflowError
  | authError
  | indexError
deriving DecidableEq, Repr

/-- `CCMAgent.encrypt(data, tag_length)`: capture the nonce from
`send_count`, increment `send_count`, CCM-encrypt with AAD `b'\x00'`,
return `ciphertext + tag`.  When `create_iv` raises, the increment is
never reached and the state is unchanged. -/
def CCMAgent.encrypt (a : CCMAgent) (prim : AEADPrim) (data : List Nat)
    (tag_length : Nat) : Option (List Nat) × CCMAgent :=
  match a.create_iv a.send_count with
  | none => (none, a)
  | some iv =>
    let a2 := { a with send_count := a.send_count + 1 }
    let ct := (prim.encDigest a.token iv [0] tag_length data).1
    let tag := (prim.encDigest a.token iv [0] tag_length data).2
    (some (ct ++ tag), a2)

/-- `CCMAgent.decrypt(data, tag_length)`: capture the nonce from
`recv_count`, increment `recv_count` (before the verification, so a failed
authentication still advances the counter), split `data` into
`data[:-tag_length]` and `data[-tag_length:]`, and verify with AAD
`b'\x00'`.  The split is stated with `take`/`drop`, which agrees with
Python's negative slicing for every positive `tag_length` (all call sites
use the default 4). -/
def CCMAgent.decrypt (a : CCMAgent) (prim : AEADPrim) (data : List Nat)
    (tag_length : Nat) : Except TransportError (List Nat) × CCMAgent :=
  match a.create_iv a.recv_count with
  | none => (.error .overflowError, a)
  | some iv =>
    let a2 := { a with recv_count := a.recv_count + 1 }
    let ciphertext := data.take (data.length - tag_length)
    let tag := data.drop (data.length - tag_length)
    match prim.decVerify a.token iv [0] tag_length ciphertext tag with
    | none => (.error .authError, a2)
    | some pt => (.ok pt, a2)

/-- The header byte computed inside `SSMTransportHandler.send` for the
chunk starting at offset `i` of a message of length `n`:
`parsing_type = 0` unless `i` starts the last chunk
(`i == (n - 1) // 19 * 19`), in which case it is 2 (encrypted) or
1 (plaintext); then `SEG = parsing_type << 1`, plus 1 when `i == 0`. -/
def chunk_header (n i : Nat) (encrypted : Bool) : Nat :=
  (if i ≠ (n - 1) / 19 * 19 then 0 else if encrypted then 2 else 1) <<< 1
    + (if i = 0 then 1 else 0)

/-- The fragmentation loop of `SSMTransportHandler.send`
(`for i in range(0, len(data), 19)`): the list of GATT writes, each
`SEG.to_bytes(1) + data[i:i+19]`, with chunk index `k` at offset
`i = 19 * k` and `(len + 18) / 19` chunks in total. -/
def send_fragments (data : List Nat) (encrypted : Bool) : List (List Nat) :=
  (List.range ((data.length + 18) / 19)).map fun k =>
    chunk_header data.length (19 * k) encrypted :: ((data.drop (19 * k)).take 19)

/-- `SSMTransportHandler` mutable state (the BLE address and callbacks are
external collaborators and carry no protocol state). -/
structure SSMTransportHandler where
  ccm : Option CCMAgent
  buffer : List Nat
deriving Repr

/-- `SSMTransportHandler.send(data, encrypted)`: when `encrypted`, require
an initialized CCM agent and replace `data` by `ccm.encrypt(data)`; then
emit the fragment writes.  Returns the list of GATT writes (or the raised
error) together with the updated state. -/
def SSMTransportHandler.send (st : SSMTransportHandler) (prim : AEADPrim)
    (data : List Nat) (encrypted : Bool) :
    Except TransportError (List (List Nat)) × SSMTransportHandler :=
  if encrypted then
    match st.ccm with
    | none => (.error .ccmNotInitialized, st)
    | some agent =>
      match agent.encrypt prim data 4 with
      | (none, agent2) => (.error .overflowError, { st with ccm := some agent2 })
      | (some ct, agent2) =>
        (.ok (send_fragments ct true), { st with ccm := some agent2 })
  else (.ok (send_fragments data false), st)

/-- `SSMTransportHandler.data_handler(data, is_encrypted)`: decrypt when
flagged encrypted (requiring an initialized CCM agent); silently drop
plaintext messages once the CCM agent is set (`elif self.ccm is not None:
return`); otherwise forward to `response_handler`.  The returned list holds
the `(data, is_encrypted)` invocations of `response_handler`. -/
def SSMTransportHandler.data_handler (st : SSMTransportHandler) (prim : AEADPrim)
    (data : List Nat) (is_encrypted : Bool) :
    Except TransportError (List (List Nat × Bool)) × SSMTransportHandler :=
  if is_encrypted then
    match st.ccm with
    | none => (.error .ccmNotInitialized, st)
    | some agent =>
      match agent.decrypt prim data 4 with
      | (.error e, agent2) => (.error e, { st with ccm := some agent2 })
      | (.ok pt, agent2) => (.ok [(pt, true)], { st with ccm := some agent2 })
  else
    match st.ccm with
    | some _ => (.ok [], st)
    | none => (.ok [(data, false)], st)

/-- The frame-codec part of `SSMTransportHandler.notification_handler`:
given the reassembly buffer and one notification, return the new buffer and
the list of completed messages handed to `data_handler`, each tagged with
its `is_encrypted` flag.  `none` models the `IndexError` raised by
`data[0]` on an empty notification.  Header 1 overwrites a non-empty
buffer with only a warning (it does not fail), and unknown headers are
logged and dropped. -/
def notification_step (buffer : List Nat) (data : List Nat) :
    Option (List Nat × List (List Nat × Bool)) :=
  match data with
  | [] => none
  | h :: rest =>
    if h = 0 then some (buffer ++ rest, [])
    else if h = 1 then some (rest, [])
    else if h = 2 then some ([], [(buffer ++ rest, false)])
    else if h = 3 then some (buffer, [(rest, false)])
    else if h = 4 then some ([], [(buffer ++ rest, true)])
    else if h = 5 then some (buffer, [(rest, true)])
    else some (buffer, [])

/-- Feeding a sequence of notifications through `notification_step` in
order, collecting every completed `(message, is_encrypted)` pair. -/
def reassemble (buffer : List Nat) :
    List (List Nat) → Option (List Nat × List (List Nat × Bool))
  | [] => some (buffer, [])
  | d :: ds =>
    match notification_step buffer d with
    | none => none
    | some (buf2, out) =>
      match reassemble buf2 ds with
      | none => none
      | some (buf3, out2) => some (buf3, out ++ out2)

/-- Full `SSMTransportHandler.notification_handler`: the frame codec
composed with `data_handler` at each completion point.  On headers 2/4 the
buffer is appended to before the `data_handler` call and cleared only
after it returns, so a raising `data_handler` leaves the appended buffer
in place. -/
def SSMTransportHandler.notification_handler (st : SSMTransportHandler)
    (prim : AEADPrim) (data : List Nat) :
    Except TransportError (List (List Nat × Bool)) × SSMTransportHandler :=
  match data with
  | [] => (.error .indexError, st)
  | h :: rest =>
    if h = 0 then (.ok [], { st with buffer := st.buffer ++ rest })
    else if h = 1 then (.ok [], { st with buffer := rest })
    else if h = 2 then
      let st1 := { st with buffer := st.buffer ++ rest }
      match st1.data_handler prim st1.buffer false with
      | (.error e, st2) => (.error e, st2)
      | (.ok out, st2) => (.ok out, { st2 with buffer := [] })
    else if h = 3 then st.data_handler prim rest false
    else if h = 4 then
      let st1 := { st with buffer := st.buffer ++ rest }
      match st1.data_handler prim st1.buffer true with
      | (.error e, st2) => (.error e, st2)
      | (.ok out, st2) => (.ok out, { st2 with buffer := [] })
    else if h = 5 then st.data_handler prim rest true
    else (.ok [], st)

/-- `EventData.MechStatus` decoded fields (`target`/`position` are sign
converted from u16, the seven flag bits come from byte 6). -/
structure MechStatus where
  battery : Nat
  target : Int
  position : Int
  clutch_failed : Bool
  lock_range : Bool
  unlock_range : Bool
  critical : Bool
  stop : Bool
  low_battery : Bool
  clockwise : Bool
deriving DecidableEq, Repr

/-- Python u16 → i16 conversion `x if x < 2**15 else x - 2**16`. -/
def u16ToI16 (x : Nat) : Int :=
  if x < 2 ^ 15 then (x : Int) else (x : Int) - 2 ^ 16

/-- `EventData.MechStatus.from_bytes`: `battery = data[0:2]` LE,
`target = data[2:4]` LE sign-converted, `position = data[4:6]` LE
sign-converted, flag bits 0–6 of `data[6]`.  `none` models the
`IndexError` from `data[6]` when the input is shorter than 7 bytes
(the slices themselves never raise). -/
def MechStatus.from_bytes (data : List Nat) : Option MechStatus :=
  match data.get? 6 with
  | none => none
  | some flags =>
    some { battery := fromBytesLE (data.take 2)
           target := u16ToI16 (fromBytesLE ((data.drop 2).take 2))
           position := u16ToI16 (fromBytesLE ((data.drop 4).take 2))
           clutch_failed := (flags >>> 0) % 2 = 1
           lock_range := (flags >>> 1) % 2 = 1
           unlock_range := (flags >>> 2) % 2 = 1
           critical := (flags >>> 3) % 2 = 1
           stop := (flags >>> 4) % 2 = 1
           low_battery := (flags >>> 5) % 2 = 1
           clockwise := (flags >>> 6) % 2 = 1 }

/-- `EventData.HistoryData` record.  `timestamp` keeps the u32 unix time
read from the wire (`datetime.fromtimestamp` is an injective wrapper
around it and carries no protocol content). -/
structure HistoryData where
  id : Nat
  type : Nat
  timestamp : Nat
  mech_status : MechStatus
  ss5 : List Nat
deriving DecidableEq, Repr

/-- `EventData.HistoryData.from_bytes`: `id = data[1:5]` LE,
`type = data[5]`, `timestamp = data[6:10]` LE,
`mech_status = MechStatus.from_bytes(data[10:17])`, `ss5 = data[17:]`.
`none` models an `IndexError` (from `data[5]` or inside
`MechStatus.from_bytes`) on a too-short input. -/
def HistoryData.from_bytes (data : List Nat) : Option HistoryData :=
  match data.get? 5 with
  | none => none
  | some ty =>
    match MechStatus.from_bytes ((data.drop 10).take 7) with
    | none => none
    | some ms =>
      some { id := fromBytesLE ((data.drop 1).take 4)
             type := ty
             timestamp := fromBytesLE ((data.drop 6).take 4)
             mech_status := ms
             ss5 := data.drop 17 }

/-- `Event.HistoryEvent.from_bytes`: if the status byte `data[2]` is 0,
decode `HistoryData` from `data[2:]`; otherwise the response element is
`None` (no history).  The outer `none` models an `IndexError`. -/
def HistoryEvent.from_bytes (data : List Nat) : Option (Option HistoryData) :=
  match data.get? 2 with
  | none => none
  | some s =>
    if s = 0 then (HistoryData.from_bytes (data.drop 2)).map some
    else some none

/-- The observable effect of `SesameClient._login(data)`: the CCM agent
installed on the transport and the single `_send_and_wait` call it makes
(`_send` prepends the item code byte to the payload before handing it to
the transport). -/
structure LoginResult where
  ccm_random_code : List Nat
  ccm_token : List Nat
  sent_item_code : Nat
  sent_payload : List Nat
  sent_encrypted : Bool
deriving DecidableEq, Repr

/-- `SesameClient._login(data)`, parametric in the external CMAC-AES
primitive `cmac key message` (PyCryptodome `CMAC.new(priv_key,
ciphermod=AES).update(data[2:]).digest()`): the session key is
`digest[:16]`, the installed agent is `CCMAgent(data[2:6], token)`, and
the login proof `token[:4]` is sent with item code 2, unencrypted. -/
def login (cmac : List Nat → List Nat → List Nat) (priv_key data : List Nat) :
    LoginResult :=
  let cmac_result := cmac priv_key (data.drop 2)
  let token := cmac_result.take 16
  { ccm_random_code := (data.drop 2).take 4
    ccm_token := token
    sent_item_code := 2
    sent_payload := token.take 4
    sent_encrypted := false }

/-- One entry of `SesameClient.response_listener[code]`: the tuple
`(callback, oneoff, deserialize)`.  Callbacks and deserializers are
external values, identified here by tokens so that Python's value
equality on the tuples (used by `list.remove`) is decidable. -/
structure LEntry where
  cb : Nat
  oneoff : Bool
  deser : Option Nat
deriving DecidableEq, Repr

/-- Python `list.remove(e)`: delete the first element equal to `e`
(the unreachable raise-on-absent case is the identity). -/
def removeFirst : List LEntry → LEntry → List LEntry
  | [], _ => []
  | x :: xs, e => if x = e then xs else x :: removeFirst xs e

/-- The loop `for entry in self.response_listener[data[1]]` of
`SesameClient._response_handler`, with its in-loop
`self.response_listener[data[1]].remove(entry)` of one-shot entries.
CPython's list iterator fetches index `idx` of the *current* list and
then advances, so removing the element at `idx` shifts the remainder left
under the iterator.  `fuel` bounds the iteration count; started at the
initial list length it is never exhausted before `get?` misses, because
`idx` grows by one per step while the list never grows.
Returns `(final list, entries fired in order)`. -/
def dispatchGo : Nat → List LEntry → Nat → List LEntry × List LEntry
  | 0, lst, _ => (lst, [])
  | fuel + 1, lst, idx =>
    match lst.get? idx with
    | none => (lst, [])
    | some entry =>
      let lst2 := if entry.oneoff then removeFirst lst entry else lst
      let r := dispatchGo fuel lst2 (idx + 1)
      (r.1, entry :: r.2)

/-- Dispatch one inbound message to the listener list of its item code:
the listener-table state after the loop and the fired entries in order. -/
def dispatchLoop (lst : List LEntry) : List LEntry × List LEntry :=
  dispatchGo lst.length lst 0

/-- Lookup in the `response_listener` dict, keyed by item code. -/
def lookupTable : List (Nat × List LEntry) → Nat → Option (List LEntry)
  | [], _ => none
  | (c, l) :: rest, code => if c = code then some l else lookupTable rest code

/-- Overwrite the listener list stored under `code`. -/
def updateTable : List (Nat × List LEntry) → Nat → List LEntry →
    List (Nat × List LEntry)
  | [], _, _ => []
  | (c, l) :: rest, code, l2 =>
    if c = code then (c, l2) :: rest else (c, l) :: updateTable rest code l2

/-- `SesameClient._add_listener(item_code, callback, oneoff, deserialize)`:
create the code's list if missing, then append the entry (FIFO order). -/
def add_listener (table : List (Nat × List LEntry)) (code : Nat) (e : LEntry) :
    List (Nat × List LEntry) :=
  match lookupTable table code with
  | none => table ++ [(code, [e])]
  | some l => updateTable table code (l ++ [e])

/-- The listener-dispatch phase of `SesameClient._response_handler`
(lines 306–324): the debug f-string evaluates `data[0]` and `data[1]`
eagerly, so any message shorter than 2 bytes raises `IndexError` (`none`)
before anything is dispatched; otherwise the loop runs on
`response_listener[data[1]]` when that key exists.  Returns the updated
table and the fired entries.  The trailing `match data[1]` block only
logs and caches `mech_status`/`mech_settings` and does not touch the
listener table. -/
def response_handler_listeners (table : List (Nat × List LEntry))
    (data : List Nat) : Option (List (Nat × List LEntry) × List LEntry) :=
  match data with
  | _ :: code :: _ =>
    match lookupTable table code with
    | none => some (table, [])
    | some l =>
      let r := dispatchLoop l
      some (updateTable table code r.1, r.2)
  | _ => none

/-! ## Helper lemmas -/

/-- A concrete AEAD primitive satisfying the library contract, used to
instantiate witnesses: the "ciphertext" is the plaintext and the tag is
`macLen` zero bytes, so verification fails on any other tag. -/
def dummyPrim : AEADPrim where
  encDigest := fun _ _ _ macLen p => (p, List.replicate macLen 0)
  decVerify := fun _ _ _ macLen ct tag =>
    if tag = List.replicate macLen 0 then some ct else none

theorem toBytesLE_length (n v : Nat) : (toBytesLE n v).length = n := by
  induction n generalizing v with
  | zero => rfl
  | succ n ih => simp [toBytesLE, ih]

theorem fromBytesLE_toBytesLE (n v : Nat) (h : v < 2 ^ (8 * n)) :
    fromBytesLE (toBytesLE n v) = v := by
  induction n generalizing v with
  | zero => simp [toBytesLE, fromBytesLE]; omega
  | succ n ih =>
    have hdiv : v / 256 < 2 ^ (8 * n) := by
      rw [Nat.div_lt_iff_lt_mul (by norm_num)]
      calc v < 2 ^ (8 * (n + 1)) := h
        _ = 2 ^ (8 * n) * 256 := by ring
    simp [toBytesLE, fromBytesLE, ih _ hdiv]
    omega

theorem toBytesLE_inj {n i j : Nat} (hi : i < 2 ^ (8 * n)) (hj : j < 2 ^ (8 * n))
    (h : toBytesLE n i = toBytesLE n j) : i = j := by
  have := fromBytesLE_toBytesLE n i hi
  rw [h, fromBytesLE_toBytesLE n j hj] at this
  omega

theorem create_iv_eq (a : CCMAgent) (count : Nat) (h : count < 2 ^ 64)
    (hn : a.nouse = 0) :
    a.create_iv count = some (toBytesLE 8 count ++ [0] ++ a.random_code) := by
  have h2 : (2 : Nat) ^ 64 = 18446744073709551616 := by norm_num
  have h8 : count < 18446744073709551616 := by omega
  simp [CCMAgent.create_iv, intToBytesLE, hn, h8, toBytesLE]

theorem create_iv_none (a : CCMAgent) (count : Nat) (h : ¬ count < 2 ^ 64) :
    a.create_iv count = none := by
  have h2 : (2 : Nat) ^ 64 = 18446744073709551616 := by norm_num
  have h8 : ¬ count < 18446744073709551616 := by omega
  simp [CCMAgent.create_iv, intToBytesLE, h8]

theorem create_iv_inj (a : CCMAgent) (hn : a.nouse = 0) {i j : Nat}
    (hi : i < 2 ^ 64) (hj : j < 2 ^ 64) (hij : i ≠ j) :
    a.create_iv i ≠ a.create_iv j := by
  rw [create_iv_eq a i hi hn, create_iv_eq a j hj hn]
  intro h
  apply hij
  apply toBytesLE_inj (n := 8) (by norm_num; omega) (by norm_num; omega)
  have hl : (toBytesLE 8 i).length = (toBytesLE 8 j).length := by
    simp [toBytesLE_length]
  simp only [Option.some.injEq, List.append_assoc] at h
  exact (List.append_inj h hl).1

/-! ## Claim C6: reassembly handler case analysis -/

/-- Claim C6: on header 1 the buffer is reset to the chunk (without
failing, whatever the prior buffer held); on header 0 the chunk is
appended; on headers 2/4 the chunk is appended and the whole buffer is
delivered once, tagged plaintext/encrypted, and the buffer is cleared; on
headers 3/5 the single chunk is delivered directly with the buffer
untouched; any other header drops the fragment without failing; and the
header sequence 1, 0, 4 delivers the concatenation tagged encrypted. -/
theorem claim_C6 : ∀ (buf c : List Nat),
    notification_step buf (1 :: c) = some (c, [])
  ∧ notification_step buf (0 :: c) = some (buf ++ c, [])
  ∧ notification_step buf (2 :: c) = some ([], [(buf ++ c, false)])
  ∧ notification_step buf (4 :: c) = some ([], [(buf ++ c, true)])
  ∧ notification_step buf (3 :: c) = some (buf, [(c, false)])
  ∧ notification_step buf (5 :: c) = some (buf, [(c, true)])
  ∧ (∀ h, 6 ≤ h → notification_step buf (h :: c) = some (buf, []))
  ∧ (∀ a b c2, reassemble [] [1 :: a, 0 :: b, 4 :: c2]
      = some ([], [(a ++ b ++ c2, true)])) := by
  intro buf c
  refine ⟨rfl, rfl, rfl, rfl, rfl, rfl, ?_, ?_⟩
  · intro h hh
    have h0 : ¬ h = 0 := by omega
    have h1 : ¬ h = 1 := by omega
    have h2 : ¬ h = 2 := by omega
    have h3 : ¬ h = 3 := by omega
    have h4 : ¬ h = 4 := by omega
    have h5 : ¬ h = 5 := by omega
    simp [notification_step, h0, h1, h2, h3, h4, h5]
  · intro a b c2
    simp [reassemble, notification_step]

theorem claim_C6_witness :
    notification_step [9] (200 :: [7]) = some ([9], [])
  ∧ reassemble [] [[1, 10], [0, 11], [4, 12]] = some ([], [([10, 11, 12], true)]) :=
  ⟨(claim_C6 [9] [7]).2.2.2.2.2.2.1 200 (by omega),
   (claim_C6 [9] [7]).2.2.2.2.2.2.2 [10] [11] [12]⟩

/-! ## Claim C8: session-not-ready rejection -/

/-- Claim C8: with no CCM agent initialized, an encrypted `send` and an
encrypted `data_handler` call both raise the `RuntimeError("CCM agent is
not initialized")` and leave the transport state unchanged — nothing is
encrypted or decrypted (the counters are untouched), no GATT write list is
produced, and no message reaches `response_handler`. -/
theorem claim_C8 : ∀ (prim : AEADPrim) (st : SSMTransportHandler) (data : List Nat),
    st.ccm = none →
    st.send prim data true = (.error .ccmNotInitialized, st)
  ∧ st.data_handler prim data true = (.error .ccmNotInitialized, st) := by
  intro prim st data hccm
  obtain ⟨oc, ob⟩ := st
  simp only at hccm
  subst hccm
  exact ⟨rfl, rfl⟩

theorem claim_C8_witness :
    SSMTransportHandler.send ⟨none, []⟩ dummyPrim [1, 2, 3] true
      = (.error .ccmNotInitialized, ⟨none, []⟩)
  ∧ SSMTransportHandler.data_handler ⟨none, []⟩ dummyPrim [1, 2, 3] true
      = (.error .ccmNotInitialized, ⟨none, []⟩) :=
  claim_C8 dummyPrim ⟨none, []⟩ [1, 2, 3] rfl

/-! ## Claim C9: plaintext messages are dropped once a key is derived -/

/-- Claim C9: once the CCM agent is set, a completed plaintext message
(header 2 or 3) produces no `response_handler` invocation and no error,
and every message the transport does deliver is one that went through
`decrypt` (its `is_encrypted` metadata is `true`). -/
theorem claim_C9 : ∀ (prim : AEADPrim) (st : SSMTransportHandler) (a : CCMAgent)
    (c : List Nat), st.ccm = some a →
    st.notification_handler prim (2 :: c) = (.ok [], { st with buffer := [] })
  ∧ st.notification_handler prim (3 :: c) = (.ok [], st)
  ∧ (∀ d out st2, st.notification_handler prim d = (.ok out, st2) →
      ∀ msg ∈ out, msg.2 = true) := by
  intro prim st a c hccm
  obtain ⟨oc, ob⟩ := st
  simp only at hccm
  subst hccm
  refine ⟨?_, ?_, ?_⟩
  · simp [SSMTransportHandler.notification_handler, SSMTransportHandler.data_handler]
  · simp [SSMTransportHandler.notification_handler, SSMTransportHandler.data_handler]
  · intro d out st2 hEq msg hmsg
    match d with
    | [] => simp [SSMTransportHandler.notification_handler] at hEq
    | h :: rest =>
      simp only [SSMTransportHandler.notification_handler] at hEq
      split_ifs at hEq
      · injection hEq with hA hB
        injection hA with hA
        subst hA
        simp at hmsg
      · injection hEq with hA hB
        injection hA with hA
        subst hA
        simp at hmsg
      · simp only [SSMTransportHandler.data_handler] at hEq
        injection hEq with hA hB
        injection hA with hA
        subst hA
        simp at hmsg
      · simp only [SSMTransportHandler.data_handler] at hEq
        injection hEq with hA hB
        injection hA with hA
        subst hA
        simp at hmsg
      · simp only [SSMTransportHandler.data_handler] at hEq
        rcases hdec : CCMAgent.decrypt a prim (ob ++ rest) 4 with ⟨res, ag2⟩
        simp only [hdec] at hEq
        cases res with
        | error e => simp at hEq
        | ok pt =>
          simp only at hEq
          injection hEq with hA hB
          injection hA with hA
          subst hA
          simp at hmsg
          simp [hmsg]
      · simp only [SSMTransportHandler.data_handler] at hEq
        rcases hdec : CCMAgent.decrypt a prim rest 4 with ⟨res, ag2⟩
        simp only [hdec] at hEq
        cases res with
        | error e => simp at hEq
        | ok pt =>
          simp only at hEq
          injection hEq with hA hB
          injection hA with hA
          subst hA
          simp at hmsg
          simp [hmsg]
      · injection hEq with hA hB
        injection hA with hA
        subst hA
        simp at hmsg

theorem claim_C9_witness :
    SSMTransportHandler.notification_handler
        ⟨some (CCMAgent.init [1, 2, 3, 4] []), [8]⟩ dummyPrim (3 :: [7, 7])
      = (.ok [], ⟨some (CCMAgent.init [1, 2, 3, 4] []), [8]⟩) :=
  ((claim_C9 dummyPrim ⟨some (CCMAgent.init [1, 2, 3, 4] []), [8]⟩
    (CCMAgent.init [1, 2, 3, 4] []) [7, 7] rfl).2.1)

/-! ## Claim C10: short messages raise index errors -/

/-- Claim C10: an empty notification makes `notification_handler` (which
reads `data[0]`) raise `IndexError`, and a delivered message shorter than
2 bytes makes the client's `_response_handler` (whose debug f-string reads
`data[0]` and `data[1]` eagerly) raise `IndexError` instead of being
dispatched or ignored. -/
theorem claim_C10 : ∀ (prim : AEADPrim) (st : SSMTransportHandler)
    (tbl : List (Nat × List LEntry)) (d : List Nat),
    st.notification_handler prim [] = (.error .indexError, st)
  ∧ notification_step st.buffer [] = none
  ∧ (d.length < 2 → response_handler_listeners tbl d = none) := by
  intro prim st tbl d
  refine ⟨rfl, rfl, ?_⟩
  intro hlen
  match d with
  | [] => rfl
  | [x] => rfl
  | x :: y :: rest => exact absurd hlen (by simp)

theorem claim_C10_witness :
    SSMTransportHandler.notification_handler ⟨none, []⟩ dummyPrim []
      = (.error .indexError, ⟨none, []⟩)
  ∧ response_handler_listeners [] [5] = none :=
  ⟨(claim_C10 dummyPrim ⟨none, []⟩ [] [5]).1,
   (claim_C10 dummyPrim ⟨none, []⟩ [] [5]).2.2 (by decide)⟩

/-! ## Claim C4: login key derivation -/

/-- Claim C4: the session key is the first 16 bytes of CMAC-AES keyed by
the long-term secret over `data[2:]`, the installed agent's challenge is
`data[2:6]`, the login proof sent back is the first 4 bytes of the key,
sent with item code 2 unencrypted; and the derivation is a pure function
of the secret and the challenge message (it depends on `data` only
through `data[2:]`). -/
theorem claim_C4 : ∀ (cmac : List Nat → List Nat → List Nat) (k d : List Nat),
    (login cmac k d).ccm_token = (cmac k (d.drop 2)).take 16
  ∧ (login cmac k d).ccm_random_code = (d.drop 2).take 4
  ∧ (login cmac k d).sent_payload = ((login cmac k d).ccm_token).take 4
  ∧ (login cmac k d).sent_item_code = 2
  ∧ (login cmac k d).sent_encrypted = false
  ∧ (∀ d2, d.drop 2 = d2.drop 2 → login cmac k d = login cmac k d2) := by
  intro cmac k d
  refine ⟨rfl, rfl, rfl, rfl, rfl, ?_⟩
  intro d2 h
  simp [login, h]

theorem claim_C4_witness :
    login (fun _ m => m ++ m) [9] [0, 1, 2, 3, 4]
      = login (fun _ m => m ++ m) [9] [7, 8, 2, 3, 4] :=
  (claim_C4 (fun _ m => m ++ m) [9] [0, 1, 2, 3, 4]).2.2.2.2.2
    [7, 8, 2, 3, 4] rfl

/-! ## Claim C3: AEAD parameters -/

/-- Claim C3: for an agent built by the login handshake (`nouse = 0`,
4-byte challenge) whose counter still fits the 8-byte nonce field, both
directions build the 13-byte nonce `counter (8 bytes LE) ‖ 0 ‖ challenge`;
both the encrypt and the decrypt call pass the single zero byte `[0]` as
associated data and tag length 4; encrypt returns `ciphertext ++ tag`
with the tag after the ciphertext; and for any primitive meeting the CCM
length contract the output of `encrypt p` has length `|p| + 4`. -/
theorem claim_C3 : ∀ (prim : AEADPrim)
    (_hlen : ∀ k n ad ml p, ((prim.encDigest k n ad ml p).1).length = p.length
        ∧ ((prim.encDigest k n ad ml p).2).length = ml)
    (a : CCMAgent) (d : List Nat),
    a.nouse = 0 → a.random_code.length = 4 →
    a.send_count < 2 ^ 64 → a.recv_count < 2 ^ 64 →
    a.create_iv a.send_count
        = some (toBytesLE 8 a.send_count ++ [0] ++ a.random_code)
  ∧ a.create_iv a.recv_count
        = some (toBytesLE 8 a.recv_count ++ [0] ++ a.random_code)
  ∧ (toBytesLE 8 a.send_count ++ [0] ++ a.random_code).length = 13
  ∧ (toBytesLE 8 a.recv_count ++ [0] ++ a.random_code).length = 13
  ∧ a.encrypt prim d 4
        = (some ((prim.encDigest a.token
              (toBytesLE 8 a.send_count ++ [0] ++ a.random_code) [0] 4 d).1
            ++ (prim.encDigest a.token
              (toBytesLE 8 a.send_count ++ [0] ++ a.random_code) [0] 4 d).2),
           { a with send_count := a.send_count + 1 })
  ∧ (∀ out, (a.encrypt prim d 4).1 = some out → out.length = d.length + 4)
  ∧ (a.decrypt prim d 4).1
        = (match prim.decVerify a.token
              (toBytesLE 8 a.recv_count ++ [0] ++ a.random_code) [0] 4
              (d.take (d.length - 4)) (d.drop (d.length - 4)) with
           | none => .error .authError
           | some pt => .ok pt) := by
  intro prim hlen a d hn hrc hs hr
  have cS := create_iv_eq a a.send_count hs hn
  have cR := create_iv_eq a a.recv_count hr hn
  have hEnc : a.encrypt prim d 4
      = (some ((prim.encDigest a.token
            (toBytesLE 8 a.send_count ++ [0] ++ a.random_code) [0] 4 d).1
          ++ (prim.encDigest a.token
            (toBytesLE 8 a.send_count ++ [0] ++ a.random_code) [0] 4 d).2),
         { a with send_count := a.send_count + 1 }) := by
    simp [CCMAgent.encrypt, cS]
  refine ⟨cS, cR, ?_, ?_, hEnc, ?_, ?_⟩
  · simp [toBytesLE_length, hrc]
  · simp [toBytesLE_length, hrc]
  · intro out hout
    rw [hEnc] at hout
    simp only [Option.some.injEq] at hout
    subst hout
    simp [List.length_append, (hlen _ _ _ _ _).1, (hlen _ _ _ _ _).2]
  · simp only [CCMAgent.decrypt, cR]
    cases hv : prim.decVerify a.token
        (toBytesLE 8 a.recv_count ++ [0] ++ a.random_code) [0] 4
        (d.take (d.length - 4)) (d.drop (d.length - 4)) <;> simp [hv]

theorem claim_C3_witness :
    (CCMAgent.init [1, 2, 3, 4] (List.replicate 16 7)).create_iv 0
      = some (toBytesLE 8 0 ++ [0] ++ [1, 2, 3, 4]) :=
  (claim_C3 dummyPrim
    (by intro k n ad ml p; simp [dummyPrim])
    (CCMAgent.init [1, 2, 3, 4] (List.replicate 16 7)) [9, 9]
    rfl (by decide) (by decide) (by decide)).1

/-! ## Claim C2: counter discipline and nonce uniqueness -/

/-- Iterating `CCMAgent.encrypt` over a list of plaintexts. -/
def encryptAll (prim : AEADPrim) (a : CCMAgent) (msgs : List (List Nat)) :
    CCMAgent :=
  msgs.foldl (fun s m => (s.encrypt prim m 4).2) a

/-- Iterating `CCMAgent.decrypt` over a list of inbound payloads. -/
def decryptAll (prim : AEADPrim) (a : CCMAgent) (msgs : List (List Nat)) :
    CCMAgent :=
  msgs.foldl (fun s m => (s.decrypt prim m 4).2) a

theorem encrypt_state (a : CCMAgent) (prim : AEADPrim) (d : List Nat)
    (hn : a.nouse = 0) (hs : a.send_count < 2 ^ 64) :
    (a.encrypt prim d 4).2 = { a with send_count := a.send_count + 1 } := by
  simp [CCMAgent.encrypt, create_iv_eq a a.send_count hs hn]

theorem encrypt_state_overflow (a : CCMAgent) (prim : AEADPrim) (d : List Nat)
    (hs : ¬ a.send_count < 2 ^ 64) :
    (a.encrypt prim d 4).2 = a := by
  simp [CCMAgent.encrypt, create_iv_none a a.send_count hs]

theorem decrypt_state (a : CCMAgent) (prim : AEADPrim) (d : List Nat)
    (hn : a.nouse = 0) (hr : a.recv_count < 2 ^ 64) :
    (a.decrypt prim d 4).2 = { a with recv_count := a.recv_count + 1 } := by
  simp only [CCMAgent.decrypt, create_iv_eq a a.recv_count hr hn]
  cases hv : prim.decVerify a.token
      (toBytesLE 8 a.recv_count ++ [0] ++ a.random_code) [0] 4
      (d.take (d.length - 4)) (d.drop (d.length - 4)) <;> simp [hv]

theorem decrypt_state_overflow (a : CCMAgent) (prim : AEADPrim) (d : List Nat)
    (hr : ¬ a.recv_count < 2 ^ 64) :
    (a.decrypt prim d 4).2 = a := by
  simp [CCMAgent.decrypt, create_iv_none a a.recv_count hr]

theorem encryptAll_send_count (prim : AEADPrim) (msgs : List (List Nat)) :
    ∀ a : CCMAgent, a.nouse = 0 → a.send_count + msgs.length ≤ 2 ^ 64 →
    (encryptAll prim a msgs).send_count = a.send_count + msgs.length := by
  induction msgs with
  | nil => intro a _ _; simp [encryptAll]
  | cons m ms ih =>
    intro a hn hb
    simp only [List.length_cons] at hb ⊢
    have hs : a.send_count < 2 ^ 64 := by omega
    have hcons : encryptAll prim a (m :: ms)
        = encryptAll prim ((a.encrypt prim m 4).2) ms := rfl
    rw [hcons, encrypt_state a prim m hn hs,
      ih { a with send_count := a.send_count + 1 } hn
        (by show a.send_count + 1 + ms.length ≤ 2 ^ 64; omega)]
    show a.send_count + 1 + ms.length = a.send_count + (ms.length + 1)
    omega

theorem decryptAll_recv_count (prim : AEADPrim) (msgs : List (List Nat)) :
    ∀ a : CCMAgent, a.nouse = 0 → a.recv_count + msgs.length ≤ 2 ^ 64 →
    (decryptAll prim a msgs).recv_count = a.recv_count + msgs.length := by
  induction msgs with
  | nil => intro a _ _; simp [decryptAll]
  | cons m ms ih =>
    intro a hn hb
    simp only [List.length_cons] at hb ⊢
    have hr : a.recv_count < 2 ^ 64 := by omega
    have hcons : decryptAll prim a (m :: ms)
        = decryptAll prim ((a.decrypt prim m 4).2) ms := rfl
    rw [hcons, decrypt_state a prim m hn hr,
      ih { a with recv_count := a.recv_count + 1 } hn
        (by show a.recv_count + 1 + ms.length ≤ 2 ^ 64; omega)]
    show a.recv_count + 1 + ms.length = a.recv_count + (ms.length + 1)
    omega

/-- Claim C2 (amended): counters start at 0; as long as at most `2 ^ 64`
messages have been processed in a direction (the capacity of the 8-byte
nonce field), after N encrypts `send_count = N` and after M decrypts
`recv_count = M`; each encrypt/decrypt call that captures a nonce
increments exactly its own direction's counter by one (the increment sits
between the nonce capture and the cipher call in the source, so a decrypt
that fails authentication has still advanced `recv_count`); counters
never decrease; and two different counter values that fit the nonce field
always produce different nonces, so no two encrypt calls of a session
ever use the same nonce. -/
theorem claim_C2 : ∀ (prim : AEADPrim) (rc tok : List Nat)
    (msgs : List (List Nat)) (a : CCMAgent) (d : List Nat) (i j : Nat),
    ((CCMAgent.init rc tok).send_count = 0 ∧ (CCMAgent.init rc tok).recv_count = 0)
  ∧ (msgs.length ≤ 2 ^ 64 →
      (encryptAll prim (CCMAgent.init rc tok) msgs).send_count = msgs.length)
  ∧ (msgs.length ≤ 2 ^ 64 →
      (decryptAll prim (CCMAgent.init rc tok) msgs).recv_count = msgs.length)
  ∧ (a.nouse = 0 → a.send_count < 2 ^ 64 →
      (a.encrypt prim d 4).2 = { a with send_count := a.send_count + 1 })
  ∧ (a.nouse = 0 → a.recv_count < 2 ^ 64 →
      (a.decrypt prim d 4).2 = { a with recv_count := a.recv_count + 1 })
  ∧ ((a.decrypt prim d 4).1 = .error .authError →
      (a.decrypt prim d 4).2.recv_count = a.recv_count + 1)
  ∧ (a.send_count ≤ (a.encrypt prim d 4).2.send_count
      ∧ a.recv_count ≤ (a.decrypt prim d 4).2.recv_count)
  ∧ (a.nouse = 0 → i < 2 ^ 64 → j < 2 ^ 64 → i ≠ j →
      a.create_iv i ≠ a.create_iv j) := by
  intro prim rc tok msgs a d i j
  refine ⟨⟨rfl, rfl⟩, ?_, ?_, ?_, ?_, ?_, ⟨?_, ?_⟩, ?_⟩
  · intro hb
    have := encryptAll_send_count prim msgs (CCMAgent.init rc tok) rfl
      (by show 0 + msgs.length ≤ 2 ^ 64; omega)
    simpa [CCMAgent.init] using this
  · intro hb
    have := decryptAll_recv_count prim msgs (CCMAgent.init rc tok) rfl
      (by show 0 + msgs.length ≤ 2 ^ 64; omega)
    simpa [CCMAgent.init] using this
  · intro hn hs; exact encrypt_state a prim d hn hs
  · intro hn hr; exact decrypt_state a prim d hn hr
  · intro hAuth
    rcases hiv : a.create_iv a.recv_count with _ | iv
    · simp [CCMAgent.decrypt, hiv] at hAuth
    · simp only [CCMAgent.decrypt, hiv]
      cases hv : prim.decVerify a.token iv [0] 4
          (d.take (d.length - 4)) (d.drop (d.length - 4)) <;> simp [hv]
  · rcases hiv : a.create_iv a.send_count with _ | iv
    · simp [CCMAgent.encrypt, hiv]
    · simp [CCMAgent.encrypt, hiv]
  · rcases hiv : a.create_iv a.recv_count with _ | iv
    · simp [CCMAgent.decrypt, hiv]
    · simp only [CCMAgent.decrypt, hiv]
      cases hv : prim.decVerify a.token iv [0] 4
          (d.take (d.length - 4)) (d.drop (d.length - 4)) <;> simp [hv]
  · intro hn hi hj hij; exact create_iv_inj a hn hi hj hij

theorem claim_C2_witness :
    (encryptAll dummyPrim (CCMAgent.init [1, 2, 3, 4] []) [[5], [6], [7]]).send_count = 3
  ∧ CCMAgent.create_iv (CCMAgent.init [1, 2, 3, 4] []) 0
      ≠ CCMAgent.create_iv (CCMAgent.init [1, 2, 3, 4] []) 1 :=
  ⟨(claim_C2 dummyPrim [1, 2, 3, 4] [] [[5], [6], [7]]
      (CCMAgent.init [1, 2, 3, 4] []) [] 0 1).2.1 (by norm_num),
   (claim_C2 dummyPrim [1, 2, 3, 4] [] [[5], [6], [7]]
      (CCMAgent.init [1, 2, 3, 4] []) [] 0 1).2.2.2.2.2.2.2
     rfl (by norm_num) (by norm_num) (by norm_num)⟩

/-- `n` successive `encrypt` calls (the payload is irrelevant to the
counter behaviour). -/
def encryptNTimes (prim : AEADPrim) : Nat → CCMAgent → CCMAgent
  | 0, a => a
  | n + 1, a => encryptNTimes prim n (a.encrypt prim [] 4).2

theorem encryptNTimes_send_count (prim : AEADPrim) :
    ∀ (n : Nat) (a : CCMAgent), a.nouse = 0 → a.send_count ≤ 2 ^ 64 →
    (encryptNTimes prim n a).send_count = min (a.send_count + n) (2 ^ 64) := by
  intro n
  induction n with
  | zero => intro a _ hb; simp [encryptNTimes]; omega
  | succ n ih =>
    intro a hn hb
    by_cases hs : a.send_count < 2 ^ 64
    · rw [show encryptNTimes prim (n + 1) a
          = encryptNTimes prim n (a.encrypt prim [] 4).2 from rfl,
        encrypt_state a prim [] hn hs,
        ih { a with send_count := a.send_count + 1 } hn
          (by show a.send_count + 1 ≤ 2 ^ 64; omega)]
      show min (a.send_count + 1 + n) (2 ^ 64) = min (a.send_count + (n + 1)) (2 ^ 64)
      omega
    · rw [show encryptNTimes prim (n + 1) a
          = encryptNTimes prim n (a.encrypt prim [] 4).2 from rfl,
        encrypt_state_overflow a prim [] hs, ih a hn hb]
      omega

/-- Claim C2, counterexample to the unrestricted statement: Python's
`count.to_bytes(8, 'little')` raises `OverflowError` once the counter
reaches `2 ^ 64`, before the increment, so after `2 ^ 64 + 1` encrypt
calls on a fresh session the send counter is `2 ^ 64`, not `2 ^ 64 + 1`. -/
theorem claim_C2_counterexample :
    (encryptNTimes dummyPrim (2 ^ 64 + 1)
        (CCMAgent.init [17, 34, 51, 68] (List.replicate 16 0))).send_count
      ≠ 2 ^ 64 + 1 := by
  rw [encryptNTimes_send_count dummyPrim (2 ^ 64 + 1)
    (CCMAgent.init [17, 34, 51, 68] (List.replicate 16 0)) rfl (Nat.zero_le _)]
  show min (0 + (2 ^ 64 + 1)) (2 ^ 64) ≠ 2 ^ 64 + 1
  omega

/-! ## Claim C7: history response decoding -/

/-- Claim C7 (amended): for a status-0 item-code-4 response laid out as
`type ‖ item_code ‖ 0 ‖ id(4 LE) ‖ history_type ‖ timestamp(4 LE) ‖
mech(7) ‖ tail`, the decoder yields the record with those fields and with
`ss5` set to the *entire* remaining tail (byte 19 onward) — the tail's
leading length byte is neither stripped nor validated against the number
of following bytes; and any message whose status byte is 5 decodes to the
"no history" value `none` without raising. -/
theorem claim_C7 : ∀ (t ic ty : Nat) (idb tsb mech ss5 : List Nat)
    (ms : MechStatus) (d5 : List Nat),
    idb.length = 4 → tsb.length = 4 → mech.length = 7 →
    MechStatus.from_bytes mech = some ms →
    HistoryEvent.from_bytes (t :: ic :: 0 :: (idb ++ ty :: (tsb ++ (mech ++ ss5))))
      = some (some
          { id := fromBytesLE idb
            type := ty
            timestamp := fromBytesLE tsb
            mech_status := ms
            ss5 := ss5 })
  ∧ (d5.get? 2 = some 5 → HistoryEvent.from_bytes d5 = some none) := by
  intro t ic ty idb tsb mech ss5 ms d5 hid hts hm hms
  constructor
  · have hg5 : (idb ++ ty :: (tsb ++ (mech ++ ss5)))[4]? = some ty := by
      rw [List.getElem?_append_right (by omega), hid]
      show (ty :: (tsb ++ (mech ++ ss5)))[0]? = some ty
      exact List.getElem?_cons_zero
    have hdropA : (idb ++ ty :: (tsb ++ (mech ++ ss5))).take 4 = idb := by
      rw [← hid, List.take_append_of_le_length (le_refl _), List.take_length]
    have hdropB : ((idb ++ ty :: (tsb ++ (mech ++ ss5))).drop 5).take 4 = tsb := by
      rw [show (5 : Nat) = idb.length + 1 from by omega, List.drop_append]
      show (tsb ++ (mech ++ ss5)).take 4 = tsb
      rw [← hts, List.take_append_of_le_length (le_refl _), List.take_length]
    have hdropC : ((idb ++ ty :: (tsb ++ (mech ++ ss5))).drop 9).take 7 = mech := by
      rw [show (9 : Nat) = idb.length + 5 from by omega, List.drop_append]
      show ((tsb ++ (mech ++ ss5)).drop 4).take 7 = mech
      rw [show (4 : Nat) = tsb.length + 0 from by omega, List.drop_append]
      show (mech ++ ss5).take 7 = mech
      rw [← hm, List.take_append_of_le_length (le_refl _), List.take_length]
    have hdropD : (idb ++ ty :: (tsb ++ (mech ++ ss5))).drop 16 = ss5 := by
      rw [show (16 : Nat) = idb.length + 12 from by omega, List.drop_append]
      show (tsb ++ (mech ++ ss5)).drop 11 = ss5
      rw [show (11 : Nat) = tsb.length + 7 from by omega, List.drop_append]
      show (mech ++ ss5).drop 7 = ss5
      rw [show (7 : Nat) = mech.length + 0 from by omega, List.drop_append]
      rfl
    have hget2 : (t :: ic :: 0 :: (idb ++ ty :: (tsb ++ (mech ++ ss5)))).get? 2
        = some 0 := rfl
    have hdrop2 : (t :: ic :: 0 :: (idb ++ ty :: (tsb ++ (mech ++ ss5)))).drop 2
        = 0 :: (idb ++ ty :: (tsb ++ (mech ++ ss5))) := rfl
    simp [HistoryEvent.from_bytes, hget2, hdrop2, HistoryData.from_bytes,
      hg5, hdropA, hdropB, hdropC, hdropD, hms]
  · intro h5
    simp only [HistoryEvent.from_bytes, h5]
    norm_num

theorem claim_C7_witness :
    HistoryEvent.from_bytes
        [8, 4, 0, 1, 0, 0, 0, 2, 3, 0, 0, 0, 10, 11, 12, 13, 14, 15, 16, 77]
      = some (some
          { id := 1
            type := 2
            timestamp := 3
            mech_status :=
              { battery := 2826
                target := 3340
                position := 3854
                clutch_failed := false
                lock_range := false
                unlock_range := false
                critical := false
                stop := true
                low_battery := false
                clockwise := false }
            ss5 := [77] })
  ∧ HistoryEvent.from_bytes [9, 4, 5] = some none := by
  have h := claim_C7 8 4 2 [1, 0, 0, 0] [3, 0, 0, 0] [10, 11, 12, 13, 14, 15, 16]
    [77]
    { battery := 2826
      target := 3340
      position := 3854
      clutch_failed := false
      lock_range := false
      unlock_range := false
      critical := false
      stop := true
      low_battery := false
      clockwise := false }
    [9, 4, 5] rfl rfl rfl (by decide)
  exact ⟨h.1, h.2 rfl⟩

/-- Claim C7, counterexample to the literal statement: the decoder does
not parse the tail as `ss5_len ‖ ss5` — on a status-0 message whose tail
is the single byte `[5]` it succeeds and stores `ss5 = [5]`, which is
neither absent nor one length byte followed by exactly that many bytes. -/
theorem claim_C7_counterexample :
    ((HistoryEvent.from_bytes
        [8, 4, 0, 1, 0, 0, 0, 2, 3, 0, 0, 0, 10, 11, 12, 13, 14, 15, 16, 5]).map
      (Option.map (fun r => r.ss5))) = some (some [5])
  ∧ ¬ (([5] : List Nat) = [] ∨ ∃ n s, ([5] : List Nat) = n :: s ∧ s.length = n) := by
  refine ⟨by decide, ?_⟩
  rintro (h | ⟨n, s, hl, hlen⟩)
  · exact absurd h (by simp)
  · injection hl with h1 h2
    subst h2
    simp at hlen
    omega

/-! ## Claim C5: listener dispatch -/

theorem removeFirst_subset (l : List LEntry) (e : LEntry) :
    removeFirst l e ⊆ l := by
  induction l with
  | nil => simp [removeFirst]
  | cons x xs ih =>
    simp only [removeFirst]
    split_ifs with h
    · exact List.subset_cons_self x xs
    · exact List.cons_subset_cons x ih

theorem mem_removeFirst_of_ne {l : List LEntry} {x e : LEntry}
    (hx : x ∈ l) (hne : x ≠ e) : x ∈ removeFirst l e := by
  induction l with
  | nil => simp at hx
  | cons y ys ih =>
    simp only [removeFirst]
    split_ifs with h
    · rcases List.mem_cons.mp hx with h1 | h1
      · exact absurd (h1.trans h) hne
      · exact h1
    · rcases List.mem_cons.mp hx with h1 | h1
      · rw [h1]; exact List.mem_cons_self _ _
      · exact List.mem_cons_of_mem _ (ih h1)

theorem nodup_removeFirst {l : List LEntry} (e : LEntry) (h : l.Nodup) :
    (removeFirst l e).Nodup := by
  induction l with
  | nil => simp [removeFirst]
  | cons x xs ih =>
    rcases List.nodup_cons.mp h with ⟨hx, hxs⟩
    simp only [removeFirst]
    split_ifs with hc
    · exact hxs
    · exact List.nodup_cons.mpr ⟨fun hmem => hx (removeFirst_subset xs e hmem), ih hxs⟩

theorem not_mem_removeFirst_self {l : List LEntry} {e : LEntry} (h : l.Nodup) :
    e ∉ removeFirst l e := by
  induction l with
  | nil => simp [removeFirst]
  | cons x xs ih =>
    rcases List.nodup_cons.mp h with ⟨hx, hxs⟩
    simp only [removeFirst]
    split_ifs with hc
    · rw [← hc]; exact hx
    · intro hmem
      rcases List.mem_cons.mp hmem with h1 | h1
      · exact hc h1.symm
      · exact ih hxs h1

theorem dispatchGo_res_subset : ∀ (fuel : Nat) (lst : List LEntry) (idx : Nat),
    (dispatchGo fuel lst idx).1 ⊆ lst := by
  intro fuel
  induction fuel with
  | zero => intro lst idx; simp [dispatchGo]
  | succ fuel ih =>
    intro lst idx
    simp only [dispatchGo]
    cases hget : lst.get? idx with
    | none => simp
    | some entry =>
      by_cases ho : entry.oneoff
      · simp only [ho, if_true]
        exact (ih _ _).trans (removeFirst_subset lst entry)
      · simp only [ho, if_false]
        exact ih _ _

theorem dispatchGo_fired_subset : ∀ (fuel : Nat) (lst : List LEntry) (idx : Nat),
    (dispatchGo fuel lst idx).2 ⊆ lst := by
  intro fuel
  induction fuel with
  | zero => intro lst idx; simp [dispatchGo]
  | succ fuel ih =>
    intro lst idx
    simp only [dispatchGo]
    cases hget : lst.get? idx with
    | none => simp
    | some entry =>
      have hentry : entry ∈ lst := by
        have := List.get?_mem hget
        exact this
      by_cases ho : entry.oneoff
      · simp only [ho, if_true]
        intro x hx
        rcases List.mem_cons.mp hx with h1 | h1
        · rw [h1]; exact hentry
        · exact removeFirst_subset lst entry (ih _ _ h1)
      · simp only [ho, if_false]
        intro x hx
        rcases List.mem_cons.mp hx with h1 | h1
        · rw [h1]; exact hentry
        · exact ih _ _ h1

theorem dispatchGo_persistent : ∀ (fuel : Nat) (lst : List LEntry) (idx : Nat)
    (e : LEntry), e ∈ lst → e.oneoff = false → e ∈ (dispatchGo fuel lst idx).1 := by
  intro fuel
  induction fuel with
  | zero => intro lst idx e he _; simpa [dispatchGo] using he
  | succ fuel ih =>
    intro lst idx e he hpe
    simp only [dispatchGo]
    cases hget : lst.get? idx with
    | none => simpa using he
    | some entry =>
      by_cases ho : entry.oneoff
      · simp only [ho, if_true]
        refine ih _ _ _ (mem_removeFirst_of_ne he ?_) hpe
        intro hcontra
        rw [hcontra] at hpe
        rw [hpe] at ho
        exact Bool.false_ne_true ho
      · simp only [ho, if_false]
        exact ih _ _ _ he hpe

theorem dispatchGo_fired_removed : ∀ (fuel : Nat) (lst : List LEntry) (idx : Nat)
    (e : LEntry), lst.Nodup → e ∈ (dispatchGo fuel lst idx).2 → e.oneoff = true →
    e ∉ (dispatchGo fuel lst idx).1 := by
  intro fuel
  induction fuel with
  | zero => intro lst idx e _ hf _; simp [dispatchGo] at hf
  | succ fuel ih =>
    intro lst idx e hnd hf hoe
    simp only [dispatchGo] at hf ⊢
    cases hget : lst.get? idx with
    | none => rw [hget] at hf; simp at hf
    | some entry =>
      rw [hget] at hf
      simp only at hf
      by_cases ho : entry.oneoff
      · simp only [ho, if_true] at hf ⊢
        rcases List.mem_cons.mp hf with h1 | h1
        · rw [h1]
          intro hmem
          exact not_mem_removeFirst_self hnd
            (dispatchGo_res_subset fuel _ (idx + 1) hmem)
        · exact ih _ _ _ (nodup_removeFirst entry hnd) h1 hoe
      · simp only [ho, if_false] at hf ⊢
        rcases List.mem_cons.mp hf with h1 | h1
        · rw [h1] at hoe
          rw [hoe] at ho
          exact absurd rfl ho
        · exact ih _ _ _ hnd h1 hoe

theorem dispatchGo_fired_count : ∀ (fuel : Nat) (lst : List LEntry) (idx : Nat)
    (e : LEntry), lst.Nodup → e.oneoff = true →
    (dispatchGo fuel lst idx).2.count e ≤ 1 := by
  intro fuel
  induction fuel with
  | zero => intro lst idx e _ _; simp [dispatchGo]
  | succ fuel ih =>
    intro lst idx e hnd hoe
    simp only [dispatchGo]
    cases hget : lst.get? idx with
    | none => simp
    | some entry =>
      simp only
      by_cases ho : entry.oneoff
      · simp only [ho, if_true]
        by_cases he : e = entry
        · have hnotin : e ∉ (dispatchGo fuel (removeFirst lst entry) (idx + 1)).2 := by
            intro hmem
            have := dispatchGo_fired_subset fuel (removeFirst lst entry) (idx + 1) hmem
            rw [he] at this
            exact not_mem_removeFirst_self hnd this
          rw [List.count_cons]
          have hz : (dispatchGo fuel (removeFirst lst entry) (idx + 1)).2.count e = 0 :=
            List.count_eq_zero.mpr hnotin
          rw [hz]
          simp [he]
        · rw [List.count_cons]
          have := ih (removeFirst lst entry) (idx + 1) e (nodup_removeFirst entry hnd) hoe
          have he2 : ¬ entry = e := fun hh => he hh.symm
          simp [he, he2]
          omega
      · simp only [ho, if_false]
        by_cases he : e = entry
        · rw [he] at hoe
          rw [hoe] at ho
          exact absurd rfl ho
        · rw [List.count_cons]
          have := ih lst (idx + 1) e hnd hoe
          have he2 : ¬ entry = e := fun hh => he hh.symm
          simp [he, he2]
          omega

theorem dispatchLoop_first (x : LEntry) (t : List LEntry) :
    ∃ r2, (dispatchLoop (x :: t)).2 = x :: r2 :=
  ⟨(dispatchGo t.length
      (if x.oneoff then removeFirst (x :: t) x else x :: t) 1).2, rfl⟩

theorem lookupTable_updateTable (tbl : List (Nat × List LEntry)) (c : Nat)
    (l l2 : List LEntry) (h : lookupTable tbl c = some l) :
    lookupTable (updateTable tbl c l2) c = some l2 := by
  induction tbl with
  | nil => simp [lookupTable] at h
  | cons p rest ih =>
    obtain ⟨pc, pl⟩ := p
    simp only [lookupTable, updateTable] at h ⊢
    split_ifs at h with hc
    · simp [updateTable, lookupTable, hc]
    · simp only [updateTable, hc, if_false, lookupTable]
      exact ih h

theorem lookupTable_append_new (tbl : List (Nat × List LEntry)) (c : Nat)
    (l : List LEntry) (h : lookupTable tbl c = none) :
    lookupTable (tbl ++ [(c, l)]) c = some l := by
  induction tbl with
  | nil => simp [lookupTable]
  | cons p rest ih =>
    obtain ⟨pc, pl⟩ := p
    simp only [lookupTable] at h
    split_ifs at h with hc
    · simp only [List.cons_append, lookupTable, if_neg hc]
      exact ih h

/-- Claim C5 (amended): the dispatch loop of `_response_handler` walks the
listener list while removing fired one-shot entries in place, so (for a
duplicate-free listener list) every persistent listener survives the
dispatch, every fired one-shot entry is removed by the end of the dispatch
and cannot fire again (it appears at most once in the fired sequence), and
the first-registered waiter of the matched item code always fires first;
`_add_listener` appends in FIFO order; and the loop operates exactly on
`response_listener[data[1]]`.  The loop does *not* fire exactly one
waiter: removal during iteration skips the listener that follows a fired
one-shot entry, so several one-shot waiters can fire in a single dispatch
(see the counterexample). -/
theorem claim_C5 : ∀ (l : List LEntry) (tbl : List (Nat × List LEntry))
    (code t : Nat) (rest : List Nat) (e : LEntry) (l0 : List LEntry),
    (l.Nodup →
      ((∀ x ∈ l, x.oneoff = false → x ∈ (dispatchLoop l).1)
      ∧ (∀ x ∈ (dispatchLoop l).2, x.oneoff = true → x ∉ (dispatchLoop l).1)
      ∧ (∀ x, x.oneoff = true → (dispatchLoop l).2.count x ≤ 1)))
  ∧ (∀ x t2, l = x :: t2 → ∃ r2, (dispatchLoop l).2 = x :: r2)
  ∧ (lookupTable tbl code = some l →
      response_handler_listeners tbl (t :: code :: rest)
        = some (updateTable tbl code (dispatchLoop l).1, (dispatchLoop l).2))
  ∧ (lookupTable tbl code = some l0 →
      lookupTable (add_listener tbl code e) code = some (l0 ++ [e]))
  ∧ (lookupTable tbl code = none →
      lookupTable (add_listener tbl code e) code = some [e]) := by
  intro l tbl code t rest e l0
  refine ⟨?_, ?_, ?_, ?_, ?_⟩
  · intro hnd
    exact ⟨fun x hx hox => dispatchGo_persistent l.length l 0 x hx hox,
      fun x hx hox => dispatchGo_fired_removed l.length l 0 x hnd hx hox,
      fun x hox => dispatchGo_fired_count l.length l 0 x hnd hox⟩
  · intro x t2 hl
    subst hl
    exact dispatchLoop_first x t2
  · intro hlk
    simp [response_handler_listeners, hlk]
  · intro hlk
    simp only [add_listener, hlk]
    exact lookupTable_updateTable tbl code l0 (l0 ++ [e]) hlk
  · intro hlk
    simp only [add_listener, hlk]
    exact lookupTable_append_new tbl code [e] hlk

theorem claim_C5_witness :
    ((⟨1, false, none⟩ : LEntry) ∈ (dispatchLoop [⟨1, false, none⟩, ⟨2, true, none⟩]).1)
  ∧ lookupTable (add_listener [(4, [⟨1, false, none⟩])] 4 ⟨2, true, none⟩) 4
      = some [⟨1, false, none⟩, ⟨2, true, none⟩] :=
  ⟨((claim_C5 [⟨1, false, none⟩, ⟨2, true, none⟩] [] 0 0 [] ⟨0, false, none⟩ []).1
      (by decide)).1 ⟨1, false, none⟩ (by decide) rfl,
   (claim_C5 [⟨1, false, none⟩] [(4, [⟨1, false, none⟩])] 4 0 [] ⟨2, true, none⟩
      [⟨1, false, none⟩]).2.2.2.1 rfl⟩

/-- Claim C5, counterexample to the literal statement: with three one-shot
waiters registered for one item code, a single dispatch fires the first
*and the third* (the in-loop `remove` shifts the list under the iterator,
skipping the second), so "exactly one one-shot waiter fires per matching
inbound item code" is false. -/
theorem claim_C5_counterexample :
    dispatchLoop [⟨1, true, none⟩, ⟨2, true, none⟩, ⟨3, true, none⟩]
        = ([⟨2, true, none⟩], [⟨1, true, none⟩, ⟨3, true, none⟩])
  ∧ ((dispatchLoop [⟨1, true, none⟩, ⟨2, true, none⟩, ⟨3, true, none⟩]).2.filter
        (fun x => x.oneoff)).length ≠ 1 := by
  constructor
  · decide
  · decide

/-! ## Claim C1: fragmentation round-trip -/

theorem reassemble_nil_eq :
    reassemble [] [] = some (([] : List Nat), ([] : List (List Nat × Bool))) := rfl

theorem reassemble_cons_step {buf d buf2 : List Nat}
    {out : List (List Nat × Bool)} {ds : List (List Nat)}
    {buf3 : List Nat} {out2 : List (List Nat × Bool)}
    (h : notification_step buf d = some (buf2, out))
    (h2 : reassemble buf2 ds = some (buf3, out2)) :
    reassemble buf (d :: ds) = some (buf3, out ++ out2) := by
  simp [reassemble, h, h2]

theorem reassemble_tail (m : List Nat) (e : Bool) :
    ∀ (d j : Nat), 1 ≤ m.length → 1 ≤ j → 1 ≤ d →
    j + d = (m.length - 1) / 19 + 1 →
    reassemble (m.take (19 * j))
        ((List.range' j d).map fun k =>
          chunk_header m.length (19 * k) e :: ((m.drop (19 * k)).take 19))
      = some ([], [(m, e)]) := by
  intro d
  induction d with
  | zero => intro j _ _ hd _; exact absurd hd (by omega)
  | succ d ih =>
    intro j hm hj _ hsum
    have hdm := Nat.div_add_mod (m.length - 1) 19
    have hmod : (m.length - 1) % 19 < 19 := Nat.mod_lt _ (by norm_num)
    by_cases hd0 : d = 0
    · subst hd0
      have hjL : j = (m.length - 1) / 19 := by omega
      rw [List.range'_one]
      simp only [List.map_cons, List.map_nil]
      have hhdr : chunk_header m.length (19 * j) e = if e then 4 else 2 := by
        unfold chunk_header
        rw [if_neg (by omega : ¬ (19 * j ≠ (m.length - 1) / 19 * 19)),
          if_neg (by omega : ¬ (19 * j = 0))]
        cases e <;> rfl
      have hchunk : (m.drop (19 * j)).take 19 = m.drop (19 * j) := by
        apply List.take_of_length_le
        rw [List.length_drop]
        omega
      rw [hhdr, hchunk]
      have hstep : notification_step (m.take (19 * j))
          ((if e then 4 else 2) :: m.drop (19 * j)) = some ([], [(m, e)]) := by
        cases e
        · show some ([], [(m.take (19 * j) ++ m.drop (19 * j), false)]) = _
          rw [List.take_append_drop]
        · show some ([], [(m.take (19 * j) ++ m.drop (19 * j), true)]) = _
          rw [List.take_append_drop]
      rw [reassemble_cons_step hstep (reassemble_nil_eq)]
      simp
    · have hjL : j < (m.length - 1) / 19 := by omega
      have hhdr : chunk_header m.length (19 * j) e = 0 := by
        unfold chunk_header
        rw [if_pos (by omega : 19 * j ≠ (m.length - 1) / 19 * 19),
          if_neg (by omega : ¬ (19 * j = 0))]
        decide
      rw [List.range'_succ]
      simp only [List.map_cons]
      rw [hhdr]
      have hstep : notification_step (m.take (19 * j))
          (0 :: (m.drop (19 * j)).take 19) = some (m.take (19 * (j + 1)), []) := by
        show some (m.take (19 * j) ++ (m.drop (19 * j)).take 19, []) = _
        rw [← List.take_add, show 19 * j + 19 = 19 * (j + 1) from by ring]
      rw [reassemble_cons_step hstep
        (ih (j + 1) hm (by omega) (by omega) (by omega))]
      simp

/-- Claim C1 (amended): for every *non-empty* message `m` of length at
most 500 and both values of the `encrypted` flag, feeding the fragments
emitted by the transport's fragmentation loop (header 3/5 for a single
chunk of at most 19 bytes, else header 1 for the first chunk, 0 for
interior chunks and 2/4 for the last) into the reassembly handler in
order yields exactly one completed message, equal to `m` and tagged with
the same flag.  The original range `0 ≤ |m|` fails: for the empty message
the loop `range(0, 0, 19)` emits no fragment at all, so nothing is ever
delivered (see the counterexample). -/
theorem claim_C1 : ∀ (m : List Nat) (e : Bool), 1 ≤ m.length → m.length ≤ 500 →
    reassemble [] (send_fragments m e) = some ([], [(m, e)]) := by
  intro m e h1 h500
  have hdm := Nat.div_add_mod (m.length - 1) 19
  have hmod : (m.length - 1) % 19 < 19 := Nat.mod_lt _ (by norm_num)
  have hnc : (m.length + 18) / 19 = (m.length - 1) / 19 + 1 := by
    rw [← Nat.add_div_right (m.length - 1) (by norm_num : 0 < 19)]
    congr 1
    omega
  by_cases hsmall : m.length ≤ 19
  · have hL0 : (m.length - 1) / 19 = 0 := Nat.div_eq_of_lt (by omega)
    unfold send_fragments
    rw [hnc, hL0, show List.range (0 + 1) = [0] from rfl]
    simp only [List.map_cons, List.map_nil]
    have hhdr : chunk_header m.length (19 * 0) e = if e then 5 else 3 := by
      unfold chunk_header
      rw [hL0, if_neg (by omega : ¬ (19 * 0 ≠ 0 * 19)),
        if_pos (by omega : 19 * 0 = 0)]
      cases e <;> rfl
    have hchunk : (m.drop (19 * 0)).take 19 = m := by
      show m.take 19 = m
      exact List.take_of_length_le hsmall
    rw [hhdr, hchunk]
    have hstep : notification_step [] ((if e then 5 else 3) :: m)
        = some ([], [(m, e)]) := by
      cases e <;> rfl
    rw [reassemble_cons_step hstep (reassemble_nil_eq)]
    simp
  · have hL1 : 1 ≤ (m.length - 1) / 19 := by omega
    unfold send_fragments
    rw [hnc, List.range_eq_range', List.range'_succ]
    simp only [List.map_cons, Nat.zero_add]
    have hhdr0 : chunk_header m.length (19 * 0) e = 1 := by
      unfold chunk_header
      rw [if_pos (by omega : 19 * 0 ≠ (m.length - 1) / 19 * 19),
        if_pos (by omega : 19 * 0 = 0)]
      rfl
    rw [hhdr0]
    have hstep : notification_step [] (1 :: (m.drop (19 * 0)).take 19)
        = some (m.take (19 * 1), []) := by
      show some ((m.drop (19 * 0)).take 19, []) = _
      rfl
    rw [reassemble_cons_step hstep
      (reassemble_tail m e ((m.length - 1) / 19) 1 (by omega) (le_refl 1)
        (by omega) (by omega))]
    simp

theorem claim_C1_witness :
    reassemble [] (send_fragments (List.replicate 25 7) true)
      = some ([], [(List.replicate 25 7, true)]) :=
  claim_C1 (List.replicate 25 7) true (by decide) (by decide)

/-- Claim C1, counterexample to the literal statement at `|m| = 0`: the
fragmentation loop emits nothing for the empty message, so reassembly
yields no completed message rather than one empty message. -/
theorem claim_C1_counterexample :
    reassemble [] (send_fragments [] false) = some ([], [])
  ∧ reassemble [] (send_fragments [] false) ≠ some ([], [([], false)]) := by
  exact ⟨rfl, by decide⟩

end SesameOS3
